import Mathlib

/-!
Verification of the wordlist-generation pipeline of the
Password-Strength-Analyzer / Custom-Wordlist-Generator repository
(file src/python_tool.py), as a shallow embedding.

Strings are modelled as lists of characters (`Str`).  Python's case
mappings (`str.lower`, `str.upper`, `str.title`, `str.capitalize`) are
per-character maps into strings, since Unicode case mappings can expand
(e.g. the sharp s upper-cases to "SS").  The model is exact on the
ASCII range and on the non-ASCII cased characters listed in its partial
Unicode table; all remaining non-ASCII characters are approximated as
uncased identities.  The `ascii*` functions are the ASCII restrictions
of these maps, used as reference forms in proofs about ASCII words.

Python `set`s have implementation-defined iteration order, so candidate
pools are modelled as `Finset Str`, and the final `list(set)` call in
`generate_wordlist` is modelled by an explicit enumeration parameter
`ord : Finset Str → List Str`; an enumeration being consistent with a
pool is captured by `IsLin`.
-/

/-- Strings of the Python program, as lists of characters. -/
abbrev Str := List Char

/-- A character is ASCII-cased (an ASCII letter). -/
def AsciiCased (c : Char) : Prop :=
  (65 ≤ c.toNat ∧ c.toNat ≤ 90) ∨ (97 ≤ c.toNat ∧ c.toNat ≤ 122)

instance (c : Char) : Decidable (AsciiCased c) :=
  inferInstanceAs (Decidable ((65 ≤ c.toNat ∧ c.toNat ≤ 90) ∨ (97 ≤ c.toNat ∧ c.toNat ≤ 122)))

/-- ASCII lower-casing of one character: the arithmetic Python's
str.lower applies in the ASCII range. -/
def lowerChar (c : Char) : Char :=
  if 65 ≤ c.toNat ∧ c.toNat ≤ 90 then Char.ofNat (c.toNat + 32) else c

/-- ASCII upper-casing of one character: the arithmetic Python's
str.upper applies in the ASCII range. -/
def upperChar (c : Char) : Char :=
  if 97 ≤ c.toNat ∧ c.toNat ≤ 122 then Char.ofNat (c.toNat - 32) else c

/-- Reference form used in proofs: the ASCII restriction of str.lower. -/
def asciiLower (s : Str) : Str := s.map lowerChar

/-- Reference form used in proofs: the ASCII restriction of str.upper. -/
def asciiUpper (s : Str) : Str := s.map upperChar

/-- Reference form used in proofs: the ASCII restriction of
str.capitalize. -/
def asciiCapitalize : Str → Str
  | [] => []
  | c :: rest => upperChar c :: rest.map lowerChar

/-- Helper for `asciiTitle`: the boolean records whether the previous
character was cased. -/
def asciiTitleAux : Bool → Str → Str
  | _, [] => []
  | b, c :: rest =>
    if AsciiCased c then
      (if b then lowerChar c else upperChar c) :: asciiTitleAux true rest
    else
      c :: asciiTitleAux false rest

/-- Reference form used in proofs: the ASCII restriction of str.title. -/
def asciiTitle (s : Str) : Str := asciiTitleAux false s

/-- Cased characters of the model: the ASCII letters together with the
non-ASCII cased characters covered by the partial Unicode table below
('\u00DF', '\u00B5', '\u039C', '\u03BC', '\u0130'). -/
def Cased (c : Char) : Prop :=
  (65 ≤ c.toNat ∧ c.toNat ≤ 90) ∨ (97 ≤ c.toNat ∧ c.toNat ≤ 122) ∨
    c = '\u00DF' ∨ c = '\u00B5' ∨ c = '\u039C' ∨ c = '\u03BC' ∨ c = '\u0130'

instance (c : Char) : Decidable (Cased c) :=
  inferInstanceAs (Decidable ((65 ≤ c.toNat ∧ c.toNat ≤ 90) ∨
    (97 ≤ c.toNat ∧ c.toNat ≤ 122) ∨
    c = '\u00DF' ∨ c = '\u00B5' ∨ c = '\u039C' ∨ c = '\u03BC' ∨ c = '\u0130'))

/-- Python str.lower on one character, as a string: exact on ASCII and
on the characters of the partial Unicode table (capital dotted I
'\u0130' lowers to the two-character "i" plus combining dot above,
capital mu '\u039C' lowers to small mu); every other non-ASCII
character is approximated as an uncased identity. -/
def pyLowerChar (c : Char) : Str :=
  if c = '\u0130' then ['i', '\u0307']
  else if c = '\u039C' then ['\u03BC']
  else [lowerChar c]

/-- Python str.upper on one character, as a string: exact on ASCII and
on the characters of the partial Unicode table (sharp s '\u00DF'
expands to "SS", micro sign '\u00B5' and small mu '\u03BC' map to
capital mu); every other non-ASCII character is approximated as an
uncased identity. -/
def pyUpperChar (c : Char) : Str :=
  if c = '\u00DF' then ['S', 'S']
  else if c = '\u00B5' then ['\u039C']
  else if c = '\u03BC' then ['\u039C']
  else [upperChar c]

/-- Unicode titlecasing of one character, used by Python str.title and
str.capitalize: it differs from upper-casing on sharp s '\u00DF',
which titlecases to "Ss"; exact on ASCII, other non-ASCII characters
approximated as identity. -/
def pyTitleChar (c : Char) : Str :=
  if c = '\u00DF' then ['S', 's']
  else if c = '\u00B5' then ['\u039C']
  else if c = '\u03BC' then ['\u039C']
  else [upperChar c]

/-- Model of Python str.lower. -/
def pyLower (s : Str) : Str := s.flatMap pyLowerChar

/-- Model of Python str.upper. -/
def pyUpper (s : Str) : Str := s.flatMap pyUpperChar

/-- Model of Python str.capitalize: first character titlecased, the
rest lower-cased. -/
def pyCapitalize : Str → Str
  | [] => []
  | c :: rest => pyTitleChar c ++ rest.flatMap pyLowerChar

/-- Helper for `pyTitle`: the boolean records whether the previous
character was cased.  A cased character is titlecased after a non-cased
position and lower-cased otherwise; non-cased characters pass through
unchanged. -/
def pyTitleAux : Bool → Str → Str
  | _, [] => []
  | b, c :: rest =>
    if Cased c then (if b then pyLowerChar c else pyTitleChar c) ++ pyTitleAux true rest
    else c :: pyTitleAux false rest

/-- Model of Python str.title. -/
def pyTitle (s : Str) : Str := pyTitleAux false s

/-- Strings of ASCII characters only; on these the model's case
mappings agree exactly with Python's. -/
def AsciiStr (s : Str) : Prop := ∀ c ∈ s, c.toNat < 128

instance (s : Str) : Decidable (AsciiStr s) :=
  inferInstanceAs (Decidable (∀ c ∈ s, c.toNat < 128))

/-- Order-preserving deduplication with an accumulator of already seen
elements; models Python's dict.fromkeys-based deduplication (first
occurrence wins). -/
def dedupFirstAux {α : Type} [DecidableEq α] (seen : List α) : List α → List α
  | [] => []
  | a :: l => if a ∈ seen then dedupFirstAux seen l else a :: dedupFirstAux (a :: seen) l

/-- Order-preserving deduplication, first occurrence wins: the model of
Python's list(dict.fromkeys(xs)). -/
def dedupFirst {α : Type} [DecidableEq α] (l : List α) : List α := dedupFirstAux [] l

/-- Cartesian product of a list of lists, in the enumeration order of
Python's itertools.product: the first coordinate varies slowest. -/
def productL {α : Type} : List (List α) → List (List α)
  | [] => [[]]
  | p :: ps => p.flatMap (fun x => (productL ps).map (fun t => x :: t))

/-- The LEET_MAP table of the source: per-character substitution lists;
characters absent from the table map only to themselves.  Each
substitution entry is a one-character string. -/
def LEET_MAP (c : Char) : List Str :=
  if c = 'a' then [['a'], ['@'], ['4']]
  else if c = 'b' then [['b'], ['8']]
  else if c = 'e' then [['e'], ['3']]
  else if c = 'i' then [['i'], ['1'], ['!']]
  else if c = 'l' then [['l'], ['1'], ['7']]
  else if c = 'o' then [['o'], ['0']]
  else if c = 's' then [['s'], ['5'], ['$']]
  else if c = 't' then [['t'], ['7']]
  else if c = 'g' then [['g'], ['9']]
  else [[c]]

/-- The COMMON_APPEND table of the source: affix patterns appended and
prepended to every candidate. -/
def COMMON_APPEND : List Str :=
  [[], ['1', '2', '3'], ['1', '2', '3', '4'], ['2', '0', '2', '3'],
   ['2', '0', '2', '4'], ['!'], ['@'], ['#'], ['0', '0', '7']]

/-- The per-character substitution pools of leetspeak_variants: one pool
per character of the lower-cased word. -/
def leetPools (word : Str) : List (List Str) := (pyLower word).map LEET_MAP

/-- The full enumeration of leet products, in itertools.product order,
each tuple joined back into a string. -/
def leetProducts (word : Str) : List Str :=
  (productL (leetPools word)).map (fun t => t.flatten)

/-- Model of leetspeak_variants: empty word gives an empty list;
otherwise a prefix of the product enumeration, deduplicated preserving
first-seen order.  The source appends each product before testing
i + 1 >= max_variants, so even a cap of 0 keeps one product; hence the
prefix length is max 1 max_variants. -/
def leetspeak_variants (word : Str) (max_variants : Nat) : List Str :=
  if word = [] then []
  else dedupFirst ((leetProducts word).take (max 1 max_variants))

/-- Model of capitalize_variants: the deduplicated ordered list of the
lower, title, upper and capitalize forms. -/
def capitalize_variants (word : Str) : List Str :=
  dedupFirst [pyLower word, pyTitle word, pyUpper word, pyCapitalize word]

/-- Helper for `splitWs`; the accumulator holds the current token in
reverse order. -/
def splitWsAux (cur : Str) : Str → List Str
  | [] => if cur = [] then [] else [cur.reverse]
  | c :: cs =>
    if c.isWhitespace then
      (if cur = [] then splitWsAux [] cs else cur.reverse :: splitWsAux [] cs)
    else
      splitWsAux (c :: cur) cs

/-- Model of Python str.split() with no argument: split on runs of
whitespace, dropping empty tokens. -/
def splitWs (s : Str) : List Str := splitWsAux [] s

/-- Model of Python str.strip(): drop leading and trailing whitespace. -/
def pyStrip (s : Str) : Str :=
  ((s.dropWhile Char.isWhitespace).reverse.dropWhile Char.isWhitespace).reverse

/-- Model of build_base_words: the set of non-empty stripped
whitespace-separated tokens of all input values.  The source returns
list(words) of a Python set; the set content is modelled here, the
enumeration order elsewhere. -/
def build_base_words (inputs : List (Str × Str)) : Finset Str :=
  ((inputs.map Prod.snd).flatMap (fun v =>
    if v = [] then []
    else ((splitWs v).map pyStrip).filter (fun p => decide (p ≠ [])))).toFinset

/-- Stage-1 contribution of one base word to the generated pool: its
capitalization variants, its leet variants (capped at 200), and the
capitalization variants of every leet variant. -/
def base_contribution (base : Str) : Finset Str :=
  (capitalize_variants base).toFinset ∪
    ((leetspeak_variants base 200).flatMap (fun l => l :: capitalize_variants l)).toFinset

/-- Stage-2 contribution: for every ordered pair of distinct base words
(a, b), both concatenations a ++ b and b ++ a. -/
def pairwise_combinations (B : Finset Str) : Finset Str :=
  B.biUnion (fun a => (B.erase a).biUnion (fun b => {a ++ b, b ++ a}))

/-- The `generated` set of the source after stages 1 and 2. -/
def generatedPool (inputs : List (Str × Str)) : Finset Str :=
  (build_base_words inputs).biUnion base_contribution ∪
    pairwise_combinations (build_base_words inputs)

/-- Model of add_common_patterns: every word with every affix pattern
appended and prepended. -/
def add_common_patterns (ws : Finset Str) : Finset Str :=
  ws.biUnion (fun w => (COMMON_APPEND.flatMap (fun e => [w ++ e, e ++ w])).toFinset)

/-- Python dict lookup on an association list. -/
def dictLookup (inputs : List (Str × Str)) (k : Str) : Option Str :=
  (inputs.find? (fun p => p.1 == k)).map Prod.snd

/-- The numeric-ish labels inspected by stage 4 of generate_wordlist. -/
def NUMERIC_KEYS : List Str :=
  [['d', 'o', 'b'], ['b', 'i', 'r', 't', 'h', 'y', 'e', 'a', 'r'],
   ['y', 'e', 'a', 'r'], ['n', 'u', 'm', 'b', 'e', 'r', 's'],
   ['p', 'h', 'o', 'n', 'e']]

/-- The numeric-slice candidates contributed by one looked-up value: a
missing or empty value contributes nothing; a non-empty value
contributes itself, and when its length is at least 4 also its last two
and its last four characters. -/
def slicesOf : Option Str → List Str
  | none => []
  | some v =>
    if v = [] then []
    else v :: (if 4 ≤ v.length then [v.drop (v.length - 2), v.drop (v.length - 4)] else [])

/-- Stage-4 contribution: for every numeric-ish label that is present
and non-empty, the raw value, and when its length is at least 4 also its
last two and last four characters. -/
def numeric_slices (inputs : List (Str × Str)) : Finset Str :=
  (NUMERIC_KEYS.flatMap (fun k => slicesOf (dictLookup inputs k))).toFinset

/-- The with_patterns set of the source just before final truncation. -/
def with_patterns_pool (inputs : List (Str × Str)) : Finset Str :=
  add_common_patterns (generatedPool inputs) ∪ numeric_slices inputs

/-- A list is a linearization of a finite set: exactly its elements,
each once, in some order.  Python's list(set) produces such a list in an
implementation-defined order. -/
def IsLin (lin : List Str) (s : Finset Str) : Prop :=
  lin.Nodup ∧ lin.toFinset = s

/-- Model of generate_wordlist.  The enumeration order Python uses for
list(with_patterns) is implementation-defined, so it is an explicit
parameter `ord`; the source then truncates to max_per_base entries and
deduplicates preserving order. -/
def generate_wordlist (ord : Finset Str → List Str) (inputs : List (Str × Str))
    (max_per_base : Nat) : List Str :=
  dedupFirst ((ord (with_patterns_pool inputs)).take max_per_base)

/-- Concrete input mapping with a single numeric value, used to exhibit
the dependence of the output on the set-enumeration order. -/
def dobInputs : List (Str × Str) := [(['d', 'o', 'b'], ['9', '9'])]

/-- One explicit enumeration of the candidate pool of `dobInputs`. -/
def dobOrder : List Str :=
  [['9', '9'],
   ['9', '9', '1', '2', '3'], ['1', '2', '3', '9', '9'],
   ['9', '9', '1', '2', '3', '4'], ['1', '2', '3', '4', '9', '9'],
   ['9', '9', '2', '0', '2', '3'], ['2', '0', '2', '3', '9', '9'],
   ['9', '9', '2', '0', '2', '4'], ['2', '0', '2', '4', '9', '9'],
   ['9', '9', '!'], ['!', '9', '9'],
   ['9', '9', '@'], ['@', '9', '9'],
   ['9', '9', '#'], ['#', '9', '9'],
   ['9', '9', '0', '0', '7'], ['0', '0', '7', '9', '9']]

theorem toNat_ofNat_valid (n : Nat) (h : n < 55296) : (Char.ofNat n).toNat = n := by
  rw [Char.ofNat, dif_pos (Or.inl h)]
  rfl

theorem char_eq_of_toNat_eq {c d : Char} (h : c.toNat = d.toNat) : c = d := by
  have hc := Char.ofNat_toNat c
  have hd := Char.ofNat_toNat d
  rw [← hc, ← hd, h]

theorem toNat_lowerChar (c : Char) :
    (lowerChar c).toNat =
      if 65 ≤ c.toNat ∧ c.toNat ≤ 90 then c.toNat + 32 else c.toNat := by
  unfold lowerChar
  by_cases h : 65 ≤ c.toNat ∧ c.toNat ≤ 90
  · rw [if_pos h, if_pos h, toNat_ofNat_valid _ (by omega)]
  · rw [if_neg h, if_neg h]

theorem toNat_upperChar (c : Char) :
    (upperChar c).toNat =
      if 97 ≤ c.toNat ∧ c.toNat ≤ 122 then c.toNat - 32 else c.toNat := by
  unfold upperChar
  by_cases h : 97 ≤ c.toNat ∧ c.toNat ≤ 122
  · rw [if_pos h, if_pos h, toNat_ofNat_valid _ (by omega)]
  · rw [if_neg h, if_neg h]

theorem lowerChar_lowerChar (c : Char) :
    lowerChar (lowerChar c) = lowerChar c := by
  apply char_eq_of_toNat_eq
  simp only [toNat_lowerChar]
  split_ifs <;> omega

theorem lowerChar_upperChar (c : Char) :
    lowerChar (upperChar c) = lowerChar c := by
  apply char_eq_of_toNat_eq
  simp only [toNat_lowerChar, toNat_upperChar]
  split_ifs <;> omega

theorem upperChar_lowerChar (c : Char) :
    upperChar (lowerChar c) = upperChar c := by
  apply char_eq_of_toNat_eq
  simp only [toNat_lowerChar, toNat_upperChar]
  split_ifs <;> omega

theorem upperChar_upperChar (c : Char) :
    upperChar (upperChar c) = upperChar c := by
  apply char_eq_of_toNat_eq
  simp only [toNat_upperChar]
  split_ifs <;> omega

theorem cased_lowerChar (c : Char) : AsciiCased (lowerChar c) ↔ AsciiCased c := by
  unfold AsciiCased
  simp only [toNat_lowerChar]
  split_ifs <;> omega

theorem cased_upperChar (c : Char) : AsciiCased (upperChar c) ↔ AsciiCased c := by
  unfold AsciiCased
  simp only [toNat_upperChar]
  split_ifs <;> omega

theorem lowerChar_of_not_cased {c : Char} (h : ¬ AsciiCased c) : lowerChar c = c := by
  unfold lowerChar
  exact if_neg (fun hc => h (Or.inl hc))

theorem upperChar_of_not_cased {c : Char} (h : ¬ AsciiCased c) : upperChar c = c := by
  unfold upperChar
  exact if_neg (fun hc => h (Or.inr hc))

theorem mem_dedupFirstAux {α : Type} [DecidableEq α] (seen l : List α) (a : α) :
    a ∈ dedupFirstAux seen l ↔ a ∈ l ∧ a ∉ seen := by
  induction l generalizing seen with
  | nil => simp [dedupFirstAux]
  | cons b l ih =>
    unfold dedupFirstAux
    by_cases hb : b ∈ seen
    · rw [if_pos hb, ih]
      simp only [List.mem_cons]
      by_cases hab : a = b
      · subst hab; tauto
      · tauto
    · rw [if_neg hb]
      simp only [List.mem_cons, ih]
      by_cases hab : a = b
      · subst hab; tauto
      · tauto

theorem nodup_dedupFirstAux {α : Type} [DecidableEq α] (seen l : List α) :
    (dedupFirstAux seen l).Nodup := by
  induction l generalizing seen with
  | nil => simp [dedupFirstAux]
  | cons b l ih =>
    unfold dedupFirstAux
    by_cases hb : b ∈ seen
    · rw [if_pos hb]; exact ih seen
    · rw [if_neg hb, List.nodup_cons]
      refine ⟨?_, ih (b :: seen)⟩
      rw [mem_dedupFirstAux]
      rintro ⟨-, h2⟩
      exact h2 (List.mem_cons_self b seen)

theorem dedupFirstAux_sublist {α : Type} [DecidableEq α] (seen l : List α) :
    (dedupFirstAux seen l).Sublist l := by
  induction l generalizing seen with
  | nil => simp [dedupFirstAux]
  | cons b l ih =>
    unfold dedupFirstAux
    by_cases hb : b ∈ seen
    · rw [if_pos hb]; exact List.Sublist.cons b (ih seen)
    · rw [if_neg hb]; exact List.Sublist.cons₂ b (ih (b :: seen))

theorem dedupFirst_nodup {α : Type} [DecidableEq α] (l : List α) : (dedupFirst l).Nodup :=
  nodup_dedupFirstAux [] l

theorem dedupFirst_sublist {α : Type} [DecidableEq α] (l : List α) : (dedupFirst l).Sublist l :=
  dedupFirstAux_sublist [] l

theorem mem_dedupFirst {α : Type} [DecidableEq α] {l : List α} {a : α} :
    a ∈ dedupFirst l ↔ a ∈ l := by
  rw [dedupFirst, mem_dedupFirstAux]
  simp

theorem dedupFirst_cons {α : Type} [DecidableEq α] (a : α) (l : List α) :
    dedupFirst (a :: l) = a :: dedupFirstAux [a] l := by
  simp [dedupFirst, dedupFirstAux]

theorem mem_productL {α : Type} {ps : List (List α)} {t : List α} :
    t ∈ productL ps ↔ List.Forall₂ (fun x p => x ∈ p) t ps := by
  induction ps generalizing t with
  | nil => simp [productL, List.forall₂_nil_right_iff]
  | cons p ps ih =>
    simp only [productL, List.mem_flatMap, List.mem_map]
    constructor
    · rintro ⟨x, hx, t₁, ht₁, rfl⟩
      exact List.Forall₂.cons hx (ih.mp ht₁)
    · intro h
      cases h with
      | cons hx ht₁ => exact ⟨_, hx, _, ih.mpr ht₁, rfl⟩

theorem productL_eq_cons {α : Type} [Inhabited α] {ps : List (List α)} (h : ∀ p ∈ ps, p ≠ []) :
    ∃ r, productL ps = (ps.map List.headI) :: r := by
  induction ps with
  | nil => exact ⟨[], rfl⟩
  | cons p ps ih =>
    obtain ⟨r, hr⟩ := ih (fun q hq => h q (List.mem_cons_of_mem p hq))
    obtain ⟨x, p₁, rfl⟩ : ∃ x p₁, p = x :: p₁ := by
      cases p with
      | nil => exact absurd rfl (h [] (List.mem_cons_self _ _))
      | cons x p₁ => exact ⟨x, p₁, rfl⟩
    refine ⟨r.map (fun t => x :: t) ++
      (p₁.flatMap (fun y => (productL ps).map (fun t => y :: t))), ?_⟩
    simp only [productL, List.flatMap_cons, hr, List.map_cons, List.cons_append,
      List.headI]

theorem LEET_MAP_ne_nil (c : Char) : LEET_MAP c ≠ [] := by
  unfold LEET_MAP
  split_ifs <;> simp

theorem LEET_MAP_headI (c : Char) : (LEET_MAP c).headI = [c] := by
  unfold LEET_MAP
  split_ifs <;> subst_vars <;> rfl

theorem LEET_MAP_length_one (c : Char) : ∀ s ∈ LEET_MAP c, s.length = 1 := by
  unfold LEET_MAP
  split_ifs <;> intro s hs <;> fin_cases hs <;> rfl

theorem flatten_length_one {t : List Str} (h : ∀ s ∈ t, s.length = 1) :
    t.flatten.length = t.length := by
  induction t with
  | nil => rfl
  | cons s t ih =>
    rw [List.flatten_cons, List.length_append, List.length_cons,
      h s (List.mem_cons_self s t), ih (fun x hx => h x (List.mem_cons_of_mem s hx))]
    omega

theorem asciiTitleAux_map_lowerChar (b : Bool) (s : Str) :
    asciiTitleAux b (s.map lowerChar) = asciiTitleAux b s := by
  induction s generalizing b with
  | nil => rfl
  | cons c s ih =>
    simp only [List.map_cons]
    unfold asciiTitleAux
    by_cases hc : AsciiCased c
    · rw [if_pos ((cased_lowerChar c).mpr hc), if_pos hc, ih]
      cases b
      · rw [if_neg (by simp), if_neg (by simp), upperChar_lowerChar]
      · rw [if_pos rfl, if_pos rfl, lowerChar_lowerChar]
    · rw [if_neg (fun h => hc ((cased_lowerChar c).mp h)), if_neg hc, ih,
        lowerChar_of_not_cased hc]

theorem asciiTitleAux_map_upperChar (b : Bool) (s : Str) :
    asciiTitleAux b (s.map upperChar) = asciiTitleAux b s := by
  induction s generalizing b with
  | nil => rfl
  | cons c s ih =>
    simp only [List.map_cons]
    unfold asciiTitleAux
    by_cases hc : AsciiCased c
    · rw [if_pos ((cased_upperChar c).mpr hc), if_pos hc, ih]
      cases b
      · rw [if_neg (by simp), if_neg (by simp), upperChar_upperChar]
      · rw [if_pos rfl, if_pos rfl, lowerChar_upperChar]
    · rw [if_neg (fun h => hc ((cased_upperChar c).mp h)), if_neg hc, ih,
        upperChar_of_not_cased hc]

theorem map_lowerChar_asciiTitleAux (b : Bool) (s : Str) :
    (asciiTitleAux b s).map lowerChar = s.map lowerChar := by
  induction s generalizing b with
  | nil => rfl
  | cons c s ih =>
    unfold asciiTitleAux
    by_cases hc : AsciiCased c
    · rw [if_pos hc]
      simp only [List.map_cons, ih]
      cases b
      · rw [if_neg (by simp), lowerChar_upperChar]
      · rw [if_pos rfl, lowerChar_lowerChar]
    · rw [if_neg hc]
      simp only [List.map_cons, ih]

theorem map_upperChar_asciiTitleAux (b : Bool) (s : Str) :
    (asciiTitleAux b s).map upperChar = s.map upperChar := by
  induction s generalizing b with
  | nil => rfl
  | cons c s ih =>
    unfold asciiTitleAux
    by_cases hc : AsciiCased c
    · rw [if_pos hc]
      simp only [List.map_cons, ih]
      cases b
      · rw [if_neg (by simp), upperChar_upperChar]
      · rw [if_pos rfl, upperChar_lowerChar]
    · rw [if_neg hc]
      simp only [List.map_cons, ih]

theorem asciiTitleAux_cons (b : Bool) (c : Char) (s : Str) :
    asciiTitleAux b (c :: s) =
      if AsciiCased c then (if b then lowerChar c else upperChar c) :: asciiTitleAux true s
      else c :: asciiTitleAux false s := rfl

theorem asciiTitleAux_cons_cased_false {c : Char} (hc : AsciiCased c) (s : Str) :
    asciiTitleAux false (c :: s) = upperChar c :: asciiTitleAux true s := by
  rw [asciiTitleAux_cons, if_pos hc, if_neg (by simp)]

theorem asciiTitleAux_cons_cased_true {c : Char} (hc : AsciiCased c) (s : Str) :
    asciiTitleAux true (c :: s) = lowerChar c :: asciiTitleAux true s := by
  rw [asciiTitleAux_cons, if_pos hc, if_pos rfl]

theorem asciiTitleAux_cons_not_cased {c : Char} (hc : ¬ AsciiCased c) (b : Bool) (s : Str) :
    asciiTitleAux b (c :: s) = c :: asciiTitleAux false s := by
  rw [asciiTitleAux_cons, if_neg hc]

theorem asciiTitleAux_asciiTitleAux (b : Bool) (s : Str) :
    asciiTitleAux b (asciiTitleAux b s) = asciiTitleAux b s := by
  induction s generalizing b with
  | nil => rfl
  | cons c s ih =>
    by_cases hc : AsciiCased c
    · cases b
      · rw [asciiTitleAux_cons_cased_false hc,
          asciiTitleAux_cons_cased_false ((cased_upperChar c).mpr hc),
          upperChar_upperChar, ih]
      · rw [asciiTitleAux_cons_cased_true hc,
          asciiTitleAux_cons_cased_true ((cased_lowerChar c).mpr hc),
          lowerChar_lowerChar, ih]
    · rw [asciiTitleAux_cons_not_cased hc, asciiTitleAux_cons_not_cased hc, ih]

theorem asciiLower_asciiLower (s : Str) : asciiLower (asciiLower s) = asciiLower s := by
  simp only [asciiLower, List.map_map, Function.comp_def, lowerChar_lowerChar]

theorem asciiLower_asciiUpper (s : Str) : asciiLower (asciiUpper s) = asciiLower s := by
  simp only [asciiLower, asciiUpper, List.map_map, Function.comp_def, lowerChar_upperChar]

theorem asciiUpper_asciiLower (s : Str) : asciiUpper (asciiLower s) = asciiUpper s := by
  simp only [asciiLower, asciiUpper, List.map_map, Function.comp_def, upperChar_lowerChar]

theorem asciiUpper_asciiUpper (s : Str) : asciiUpper (asciiUpper s) = asciiUpper s := by
  simp only [asciiUpper, List.map_map, Function.comp_def, upperChar_upperChar]

theorem asciiLower_asciiTitle (s : Str) : asciiLower (asciiTitle s) = asciiLower s :=
  map_lowerChar_asciiTitleAux false s

theorem asciiUpper_asciiTitle (s : Str) : asciiUpper (asciiTitle s) = asciiUpper s :=
  map_upperChar_asciiTitleAux false s

theorem asciiTitle_asciiLower (s : Str) : asciiTitle (asciiLower s) = asciiTitle s :=
  asciiTitleAux_map_lowerChar false s

theorem asciiTitle_asciiUpper (s : Str) : asciiTitle (asciiUpper s) = asciiTitle s :=
  asciiTitleAux_map_upperChar false s

theorem asciiTitle_asciiTitle (s : Str) : asciiTitle (asciiTitle s) = asciiTitle s :=
  asciiTitleAux_asciiTitleAux false s

theorem asciiLower_asciiCapitalize (s : Str) : asciiLower (asciiCapitalize s) = asciiLower s := by
  cases s with
  | nil => rfl
  | cons c t =>
    simp only [asciiCapitalize, asciiLower, List.map_cons, List.map_map, Function.comp_def,
      lowerChar_upperChar, lowerChar_lowerChar]

theorem asciiUpper_asciiCapitalize (s : Str) : asciiUpper (asciiCapitalize s) = asciiUpper s := by
  cases s with
  | nil => rfl
  | cons c t =>
    simp only [asciiCapitalize, asciiUpper, List.map_cons, List.map_map, Function.comp_def,
      upperChar_upperChar, upperChar_lowerChar]

theorem asciiCapitalize_asciiLower (s : Str) : asciiCapitalize (asciiLower s) = asciiCapitalize s := by
  cases s with
  | nil => rfl
  | cons c t =>
    simp only [asciiLower, List.map_cons, asciiCapitalize, List.map_map, Function.comp_def,
      upperChar_lowerChar, lowerChar_lowerChar]

theorem asciiCapitalize_asciiUpper (s : Str) : asciiCapitalize (asciiUpper s) = asciiCapitalize s := by
  cases s with
  | nil => rfl
  | cons c t =>
    simp only [asciiUpper, List.map_cons, asciiCapitalize, List.map_map, Function.comp_def,
      upperChar_upperChar, lowerChar_upperChar]

theorem asciiCapitalize_asciiCapitalize (s : Str) : asciiCapitalize (asciiCapitalize s) = asciiCapitalize s := by
  cases s with
  | nil => rfl
  | cons c t =>
    simp only [asciiCapitalize, List.map_map, Function.comp_def,
      upperChar_upperChar, lowerChar_lowerChar]

theorem asciiTitle_asciiCapitalize (s : Str) : asciiTitle (asciiCapitalize s) = asciiTitle s := by
  cases s with
  | nil => rfl
  | cons c t =>
    show asciiTitleAux false (upperChar c :: t.map lowerChar) = asciiTitleAux false (c :: t)
    by_cases hc : AsciiCased c
    · rw [asciiTitleAux_cons_cased_false ((cased_upperChar c).mpr hc),
        asciiTitleAux_cons_cased_false hc, upperChar_upperChar,
        asciiTitleAux_map_lowerChar]
    · rw [upperChar_of_not_cased hc, asciiTitleAux_cons_not_cased hc,
        asciiTitleAux_cons_not_cased hc, asciiTitleAux_map_lowerChar]

theorem asciiCapitalize_asciiTitle (s : Str) : asciiCapitalize (asciiTitle s) = asciiCapitalize s := by
  cases s with
  | nil => rfl
  | cons c t =>
    by_cases hc : AsciiCased c
    · show asciiCapitalize (asciiTitleAux false (c :: t)) = _
      rw [asciiTitleAux_cons_cased_false hc]
      show upperChar (upperChar c) :: (asciiTitleAux true t).map lowerChar = _
      rw [upperChar_upperChar, map_lowerChar_asciiTitleAux]
      rfl
    · show asciiCapitalize (asciiTitleAux false (c :: t)) = _
      rw [asciiTitleAux_cons_not_cased hc]
      show upperChar c :: (asciiTitleAux false t).map lowerChar = _
      rw [map_lowerChar_asciiTitleAux]
      rfl

theorem flatten_map_singleton (l : Str) : (l.map (fun c => ([c] : Str))).flatten = l := by
  induction l with
  | nil => rfl
  | cons c t ih => simp [ih]

theorem forall₂_mem_left {α β : Type} {R : α → β → Prop} {l₁ : List α} {l₂ : List β}
    (h : List.Forall₂ R l₁ l₂) {a : α} (ha : a ∈ l₁) : ∃ b ∈ l₂, R a b := by
  induction h with
  | nil => exact absurd ha (List.not_mem_nil a)
  | cons hR h ih =>
    rcases List.mem_cons.mp ha with rfl | ha₂
    · exact ⟨_, List.mem_cons_self _ _, hR⟩
    · obtain ⟨b, hb, hRb⟩ := ih ha₂
      exact ⟨b, List.mem_cons_of_mem _ hb, hRb⟩

theorem pyLowerChar_ascii {c : Char} (h : c.toNat < 128) : pyLowerChar c = [lowerChar c] := by
  have h₁ : c ≠ '\u0130' := by rintro rfl; exact absurd h (by decide)
  have h₂ : c ≠ '\u039C' := by rintro rfl; exact absurd h (by decide)
  unfold pyLowerChar
  rw [if_neg h₁, if_neg h₂]

theorem pyUpperChar_ascii {c : Char} (h : c.toNat < 128) : pyUpperChar c = [upperChar c] := by
  have h₁ : c ≠ '\u00DF' := by rintro rfl; exact absurd h (by decide)
  have h₂ : c ≠ '\u00B5' := by rintro rfl; exact absurd h (by decide)
  have h₃ : c ≠ '\u03BC' := by rintro rfl; exact absurd h (by decide)
  unfold pyUpperChar
  rw [if_neg h₁, if_neg h₂, if_neg h₃]

theorem pyTitleChar_ascii {c : Char} (h : c.toNat < 128) : pyTitleChar c = [upperChar c] := by
  have h₁ : c ≠ '\u00DF' := by rintro rfl; exact absurd h (by decide)
  have h₂ : c ≠ '\u00B5' := by rintro rfl; exact absurd h (by decide)
  have h₃ : c ≠ '\u03BC' := by rintro rfl; exact absurd h (by decide)
  unfold pyTitleChar
  rw [if_neg h₁, if_neg h₂, if_neg h₃]

theorem cased_ascii {c : Char} (h : c.toNat < 128) : Cased c ↔ AsciiCased c := by
  unfold Cased AsciiCased
  constructor
  · rintro (hc | hc | rfl | rfl | rfl | rfl | rfl)
    · exact Or.inl hc
    · exact Or.inr hc
    · exact absurd h (by decide)
    · exact absurd h (by decide)
    · exact absurd h (by decide)
    · exact absurd h (by decide)
    · exact absurd h (by decide)
  · rintro (hc | hc)
    · exact Or.inl hc
    · exact Or.inr (Or.inl hc)

theorem flatMap_pyLowerChar_ascii {s : Str} (h : AsciiStr s) :
    s.flatMap pyLowerChar = s.map lowerChar := by
  induction s with
  | nil => rfl
  | cons c t ih =>
    rw [List.flatMap_cons, List.map_cons,
      pyLowerChar_ascii (h c (List.mem_cons_self c t)),
      ih (fun x hx => h x (List.mem_cons_of_mem c hx))]
    rfl

theorem flatMap_pyUpperChar_ascii {s : Str} (h : AsciiStr s) :
    s.flatMap pyUpperChar = s.map upperChar := by
  induction s with
  | nil => rfl
  | cons c t ih =>
    rw [List.flatMap_cons, List.map_cons,
      pyUpperChar_ascii (h c (List.mem_cons_self c t)),
      ih (fun x hx => h x (List.mem_cons_of_mem c hx))]
    rfl

theorem pyLower_ascii {s : Str} (h : AsciiStr s) : pyLower s = asciiLower s :=
  flatMap_pyLowerChar_ascii h

theorem pyUpper_ascii {s : Str} (h : AsciiStr s) : pyUpper s = asciiUpper s :=
  flatMap_pyUpperChar_ascii h

theorem pyCapitalize_ascii {s : Str} (h : AsciiStr s) :
    pyCapitalize s = asciiCapitalize s := by
  cases s with
  | nil => rfl
  | cons c t =>
    show pyTitleChar c ++ t.flatMap pyLowerChar = upperChar c :: t.map lowerChar
    rw [pyTitleChar_ascii (h c (List.mem_cons_self c t)),
      flatMap_pyLowerChar_ascii (fun x hx => h x (List.mem_cons_of_mem c hx))]
    rfl

theorem pyTitleAux_ascii (b : Bool) (s : Str) :
    AsciiStr s → pyTitleAux b s = asciiTitleAux b s := by
  induction s generalizing b with
  | nil => intro _; rfl
  | cons c t ih =>
    intro h
    have hc : c.toNat < 128 := h c (List.mem_cons_self c t)
    have ht : AsciiStr t := fun x hx => h x (List.mem_cons_of_mem c hx)
    show (if Cased c then (if b then pyLowerChar c else pyTitleChar c) ++ pyTitleAux true t
        else c :: pyTitleAux false t) =
      (if AsciiCased c then (if b then lowerChar c else upperChar c) :: asciiTitleAux true t
        else c :: asciiTitleAux false t)
    by_cases hcc : AsciiCased c
    · rw [if_pos ((cased_ascii hc).mpr hcc), if_pos hcc, ih true ht]
      cases b
      · rw [if_neg (by simp), if_neg (by simp), pyTitleChar_ascii hc]
        rfl
      · rw [if_pos rfl, if_pos rfl, pyLowerChar_ascii hc]
        rfl
    · rw [if_neg (fun hx => hcc ((cased_ascii hc).mp hx)), if_neg hcc, ih false ht]

theorem pyTitle_ascii {s : Str} (h : AsciiStr s) : pyTitle s = asciiTitle s :=
  pyTitleAux_ascii false s h

theorem asciiLower_ascii {s : Str} (h : AsciiStr s) : AsciiStr (asciiLower s) := by
  intro x hx
  unfold asciiLower at hx
  rw [List.mem_map] at hx
  obtain ⟨y, hy, rfl⟩ := hx
  have hy₂ := h y hy
  rw [toNat_lowerChar]
  split_ifs <;> omega

theorem asciiUpper_ascii {s : Str} (h : AsciiStr s) : AsciiStr (asciiUpper s) := by
  intro x hx
  unfold asciiUpper at hx
  rw [List.mem_map] at hx
  obtain ⟨y, hy, rfl⟩ := hx
  have hy₂ := h y hy
  rw [toNat_upperChar]
  split_ifs <;> omega

theorem asciiCapitalize_ascii {s : Str} (h : AsciiStr s) :
    AsciiStr (asciiCapitalize s) := by
  cases s with
  | nil => intro x hx; exact absurd hx (List.not_mem_nil x)
  | cons c t =>
    intro x hx
    simp only [asciiCapitalize] at hx
    rcases List.mem_cons.mp hx with rfl | hx₂
    · have := h c (List.mem_cons_self c t)
      rw [toNat_upperChar]
      split_ifs <;> omega
    · rw [List.mem_map] at hx₂
      obtain ⟨y, hy, rfl⟩ := hx₂
      have := h y (List.mem_cons_of_mem c hy)
      rw [toNat_lowerChar]
      split_ifs <;> omega

theorem asciiTitleAux_ascii (b : Bool) (s : Str) :
    AsciiStr s → AsciiStr (asciiTitleAux b s) := by
  induction s generalizing b with
  | nil => intro _ x hx; exact absurd hx (List.not_mem_nil x)
  | cons c t ih =>
    intro h x hx
    have hc : c.toNat < 128 := h c (List.mem_cons_self c t)
    have ht : AsciiStr t := fun y hy => h y (List.mem_cons_of_mem c hy)
    by_cases hcc : AsciiCased c
    · rw [asciiTitleAux_cons, if_pos hcc] at hx
      rcases List.mem_cons.mp hx with rfl | hx₂
      · cases b
        · rw [if_neg (by simp), toNat_upperChar]
          split_ifs <;> omega
        · rw [if_pos rfl, toNat_lowerChar]
          split_ifs <;> omega
      · exact ih true ht x hx₂
    · rw [asciiTitleAux_cons, if_neg hcc] at hx
      rcases List.mem_cons.mp hx with rfl | hx₂
      · exact hc
      · exact ih false ht x hx₂

theorem asciiTitle_ascii {s : Str} (h : AsciiStr s) : AsciiStr (asciiTitle s) :=
  asciiTitleAux_ascii false s h

/-- Counterexample for C3 as stated: at cap 0 the source's loop appends
the first product before testing its bound (i + 1 >= max_variants), so
the expansion of "a" returns one variant, not at most zero. -/
theorem leetspeak_variants_cap_zero :
    leetspeak_variants ['a'] 0 = [['a']] ∧
    ¬ ((leetspeak_variants ['a'] 0).length ≤ 0) := by
  decide

/-- C3 (amended): for every cap of at least one, leet expansion takes
the Cartesian product of the per-character substitution pools in
product order, stops once max_variants products have been produced, and
deduplicates: the result has at most max_variants entries, no
duplicates, and is an order-preserving selection from the full product
enumeration. -/
theorem leetspeak_variants_capped (word : Str) (max_variants : Nat)
    (hm : 1 ≤ max_variants) :
    (leetspeak_variants word max_variants).length ≤ max_variants ∧
    (leetspeak_variants word max_variants).Nodup ∧
    (leetspeak_variants word max_variants).Sublist (leetProducts word) := by
  unfold leetspeak_variants
  by_cases h : word = []
  · rw [if_pos h]
    exact ⟨Nat.zero_le _, List.nodup_nil, List.nil_sublist _⟩
  · rw [if_neg h]
    refine ⟨?_, dedupFirst_nodup _, ?_⟩
    · refine le_trans (dedupFirst_sublist _).length_le
        (le_trans (List.length_take_le _ _) ?_)
      exact Nat.max_le.mpr ⟨hm, Nat.le_refl _⟩
    · exact (dedupFirst_sublist _).trans (List.take_sublist _ _)

/-- Witness for C3: concrete instantiation at word "a" and cap 2. -/
theorem leetspeak_variants_capped_witness :
    (leetspeak_variants ['a'] 2).length ≤ 2 ∧
    (leetspeak_variants ['a'] 2).Nodup ∧
    (leetspeak_variants ['a'] 2).Sublist (leetProducts ['a']) :=
  leetspeak_variants_capped ['a'] 2 (by decide)

/-- C4: leet expansion of the empty word is the empty list, and of the
single word "a" is exactly its substitution list in table order. -/
theorem leetspeak_variants_empty_and_a :
    leetspeak_variants [] 200 = [] ∧
    leetspeak_variants ['a'] 200 = [['a'], ['@'], ['4']] := by
  constructor
  · rfl
  · decide

/-- Counterexample for C5 as stated: capitalization expansion is not
idempotent at the sharp s, whose upper form "SS" re-expands to the new
form "ss" (Python's Unicode case mappings expand the sharp s). -/
theorem capitalize_variants_not_idempotent :
    (['S', 'S'] ∈ capitalize_variants ['\u00DF']) ∧
    (['s', 's'] ∈ capitalize_variants ['S', 'S']) ∧
    ['s', 's'] ∉ capitalize_variants ['\u00DF'] := by
  decide

/-- C5 (amended): for ASCII words, capitalization expansion is
idempotent: every capitalization variant of a capitalization variant of
an ASCII word is already among the word's own capitalization variants. -/
theorem capitalize_variants_idempotent (w v u : Str) (hw : AsciiStr w)
    (hv : v ∈ capitalize_variants w) (hu : u ∈ capitalize_variants v) :
    u ∈ capitalize_variants w := by
  unfold capitalize_variants at hv hu ⊢
  rw [mem_dedupFirst] at hv hu ⊢
  simp only [List.mem_cons, List.not_mem_nil, or_false] at hv hu ⊢
  rw [pyLower_ascii hw, pyTitle_ascii hw, pyUpper_ascii hw, pyCapitalize_ascii hw] at hv ⊢
  have hAv : AsciiStr v := by
    rcases hv with h₁ | h₁ | h₁ | h₁ <;> rw [h₁]
    exacts [asciiLower_ascii hw, asciiTitle_ascii hw, asciiUpper_ascii hw,
      asciiCapitalize_ascii hw]
  rw [pyLower_ascii hAv, pyTitle_ascii hAv, pyUpper_ascii hAv, pyCapitalize_ascii hAv] at hu
  rcases hv with rfl | rfl | rfl | rfl <;> rcases hu with rfl | rfl | rfl | rfl <;>
    simp [asciiLower_asciiLower, asciiLower_asciiTitle, asciiLower_asciiUpper,
      asciiLower_asciiCapitalize, asciiTitle_asciiLower, asciiTitle_asciiTitle,
      asciiTitle_asciiUpper, asciiTitle_asciiCapitalize, asciiUpper_asciiLower,
      asciiUpper_asciiTitle, asciiUpper_asciiUpper, asciiUpper_asciiCapitalize,
      asciiCapitalize_asciiLower, asciiCapitalize_asciiTitle, asciiCapitalize_asciiUpper,
      asciiCapitalize_asciiCapitalize]

/-- Witness for C5: concrete instantiation at the ASCII word "ab" with
v = "AB" and u = "Ab". -/
theorem capitalize_variants_idempotent_witness :
    AsciiStr (("ab").toList) ∧
    (("AB").toList ∈ capitalize_variants (("ab").toList)) ∧
    (("Ab").toList ∈ capitalize_variants (("AB").toList)) ∧
    (("Ab").toList ∈ capitalize_variants (("ab").toList)) :=
  ⟨by decide, by decide, by decide,
    capitalize_variants_idempotent (("ab").toList) (("AB").toList) (("Ab").toList)
      (by decide) (by decide) (by decide)⟩

/-- C9: for a non-empty word and a positive cap, the first leet variant
is the lower-cased word, because every substitution list starts with the
identity character and the product enumeration starts with the
all-identity tuple. -/
theorem leetspeak_variants_head (word : Str) (max_variants : Nat)
    (hw : word ≠ []) (hm : 1 ≤ max_variants) :
    (leetspeak_variants word max_variants).head? = some (pyLower word) := by
  have hne : ∀ p ∈ leetPools word, p ≠ [] := by
    intro p hp
    rw [leetPools, List.mem_map] at hp
    obtain ⟨c, -, rfl⟩ := hp
    exact LEET_MAP_ne_nil c
  obtain ⟨r, hr⟩ := productL_eq_cons hne
  have hhead : (leetPools word).map List.headI = (pyLower word).map (fun c => [c]) := by
    rw [leetPools, List.map_map]
    exact List.map_congr_left (fun c _ => LEET_MAP_headI c)
  unfold leetspeak_variants
  rw [if_neg hw]
  unfold leetProducts
  rw [hr, List.map_cons, hhead, flatten_map_singleton]
  obtain ⟨k, rfl⟩ : ∃ k, max_variants = k + 1 := ⟨max_variants - 1, by omega⟩
  rw [Nat.max_eq_right (Nat.succ_le_succ (Nat.zero_le k)), List.take_succ_cons,
    dedupFirst_cons]
  rfl

/-- Witness for C9: concrete instantiation at word = "ab" and the
default cap 200. -/
theorem leetspeak_variants_head_witness :
    (("ab").toList ≠ []) ∧ 1 ≤ 200 ∧
    (leetspeak_variants (("ab").toList) 200).head? = some (pyLower (("ab").toList)) :=
  ⟨by decide, by decide, leetspeak_variants_head (("ab").toList) 200 (by decide) (by decide)⟩

/-- C10: every string produced by leet expansion has the length of the
lower-cased input word: the substitution pools are built from the
lower-cased word, and every substitution-table entry is a single
character, so substitution never inserts or deletes characters. -/
theorem leetspeak_variants_length (word : Str) (max_variants : Nat) (v : Str)
    (hv : v ∈ leetspeak_variants word max_variants) :
    v.length = (pyLower word).length := by
  unfold leetspeak_variants at hv
  by_cases h : word = []
  · rw [if_pos h] at hv
    exact absurd hv (List.not_mem_nil v)
  · rw [if_neg h, mem_dedupFirst] at hv
    have hv₂ : v ∈ leetProducts word := (List.take_sublist _ _).subset hv
    rw [leetProducts, List.mem_map] at hv₂
    obtain ⟨t, ht, rfl⟩ := hv₂
    rw [mem_productL] at ht
    have hone : ∀ s ∈ t, s.length = 1 := by
      intro s hs
      obtain ⟨p, hp, hsp⟩ := forall₂_mem_left ht hs
      rw [leetPools, List.mem_map] at hp
      obtain ⟨c, -, rfl⟩ := hp
      exact LEET_MAP_length_one c s hsp
    rw [flatten_length_one hone, ht.length_eq, leetPools, List.length_map]

/-- Witness for C10: the leet variant "@8" of "ab" has the length of
the lower-cased word "ab". -/
theorem leetspeak_variants_length_witness :
    (("@8").toList ∈ leetspeak_variants (("ab").toList) 200) ∧
    ("@8").toList.length = (pyLower (("ab").toList)).length :=
  ⟨by decide, leetspeak_variants_length (("ab").toList) 200 (("@8").toList) (by decide)⟩

theorem slicesOf_some (v : Str) :
    slicesOf (some v) =
      if v = [] then []
      else v :: (if 4 ≤ v.length then [v.drop (v.length - 2), v.drop (v.length - 4)] else []) :=
  rfl

/-- C1: for every enumeration order of the candidate pool, every input
mapping and every configured limit, the final wordlist has length at
most max_per_base and contains no duplicate entries. -/
theorem generate_wordlist_bounded (ord : Finset Str → List Str)
    (inputs : List (Str × Str)) (max_per_base : Nat) :
    (generate_wordlist ord inputs max_per_base).length ≤ max_per_base ∧
    (generate_wordlist ord inputs max_per_base).Nodup := by
  unfold generate_wordlist
  exact ⟨le_trans (dedupFirst_sublist _).length_le (List.length_take_le _ _),
    dedupFirst_nodup _⟩

/-- C2 evidence: the wordlist produced by generate_wordlist depends on
the enumeration order of the candidate pool (which Python's hash-based
sets leave implementation-defined): two enumerations of the same pool
yield different wordlists on the concrete input dob = "99". -/
theorem generate_wordlist_order_dependent :
    IsLin dobOrder (with_patterns_pool dobInputs) ∧
    IsLin dobOrder.reverse (with_patterns_pool dobInputs) ∧
    generate_wordlist (fun _ => dobOrder) dobInputs 500 ≠
      generate_wordlist (fun _ => dobOrder.reverse) dobInputs 500 :=
  ⟨⟨by decide, by decide⟩, ⟨by decide, by decide⟩, by decide⟩

/-- C6: every ordered pair of distinct base words contributes both
concatenations to the candidate pool, and with fewer than two distinct
base words the pairwise stage contributes nothing. -/
theorem pairwise_combination_stage (inputs : List (Str × Str)) :
    (∀ a b, a ∈ build_base_words inputs → b ∈ build_base_words inputs → a ≠ b →
      a ++ b ∈ generatedPool inputs ∧ b ++ a ∈ generatedPool inputs) ∧
    ((build_base_words inputs).card < 2 →
      pairwise_combinations (build_base_words inputs) = ∅) := by
  constructor
  · intro a b ha hb hab
    constructor
    · rw [generatedPool]
      refine Finset.mem_union_right _ ?_
      rw [pairwise_combinations, Finset.mem_biUnion]
      refine ⟨a, ha, ?_⟩
      rw [Finset.mem_biUnion]
      exact ⟨b, Finset.mem_erase.mpr ⟨Ne.symm hab, hb⟩, by simp⟩
    · rw [generatedPool]
      refine Finset.mem_union_right _ ?_
      rw [pairwise_combinations, Finset.mem_biUnion]
      refine ⟨a, ha, ?_⟩
      rw [Finset.mem_biUnion]
      exact ⟨b, Finset.mem_erase.mpr ⟨Ne.symm hab, hb⟩, by simp⟩
  · intro hcard
    rw [Finset.eq_empty_iff_forall_not_mem]
    intro x hx
    rw [pairwise_combinations, Finset.mem_biUnion] at hx
    obtain ⟨a, ha, hx⟩ := hx
    rw [Finset.mem_biUnion] at hx
    obtain ⟨b, hb, -⟩ := hx
    rw [Finset.mem_erase] at hb
    exact hb.1 (Finset.card_le_one.mp (by omega) b hb.2 a ha)

/-- Witness for C6: seeds {"john", "2020"} yield both "john2020" and
"2020john" in the candidate pool, and a single seed yields an empty
pairwise stage. -/
theorem pairwise_combination_stage_witness :
    (("john").toList ++ ("2020").toList ∈
      generatedPool [(("name").toList, ("john").toList), (("dob").toList, ("2020").toList)]) ∧
    (("2020").toList ++ ("john").toList ∈
      generatedPool [(("name").toList, ("john").toList), (("dob").toList, ("2020").toList)]) ∧
    pairwise_combinations (build_base_words [(("name").toList, ("john").toList)]) = ∅ :=
  ⟨((pairwise_combination_stage _).1 _ _ (by decide) (by decide) (by decide)).1,
   ((pairwise_combination_stage _).1 _ _ (by decide) (by decide) (by decide)).2,
   (pairwise_combination_stage _).2 (by decide)⟩

/-- C7: every numeric-ish label that is present with a non-empty value
contributes the raw value to the candidate pool, and when the value has
length at least 4 also its last two and last four characters. -/
theorem numeric_slice_injection (inputs : List (Str × Str)) (k v : Str)
    (hk : k ∈ NUMERIC_KEYS) (hv : dictLookup inputs k = some v) (hne : v ≠ []) :
    v ∈ with_patterns_pool inputs ∧
    (4 ≤ v.length →
      v.drop (v.length - 2) ∈ with_patterns_pool inputs ∧
      v.drop (v.length - 4) ∈ with_patterns_pool inputs) := by
  have base : ∀ x : Str, x ∈ slicesOf (some v) → x ∈ with_patterns_pool inputs := by
    intro x hx
    rw [with_patterns_pool]
    refine Finset.mem_union_right _ ?_
    rw [numeric_slices, List.mem_toFinset, List.mem_flatMap]
    refine ⟨k, hk, ?_⟩
    rw [hv]
    exact hx
  constructor
  · refine base v ?_
    rw [slicesOf_some, if_neg hne]
    exact List.mem_cons_self _ _
  · intro h4
    constructor
    · refine base _ ?_
      rw [slicesOf_some, if_neg hne]
      refine List.mem_cons_of_mem _ ?_
      rw [if_pos h4]
      exact List.mem_cons_self _ _
    · refine base _ ?_
      rw [slicesOf_some, if_neg hne]
      refine List.mem_cons_of_mem _ ?_
      rw [if_pos h4]
      exact List.mem_cons_of_mem _ (List.mem_cons_self _ _)

/-- Witness for C7: dob = "19950601" contributes "19950601", its last
two characters "01" and its last four characters "0601" to the pool. -/
theorem numeric_slice_injection_witness :
    (("19950601").toList ∈ with_patterns_pool [(("dob").toList, ("19950601").toList)]) ∧
    (("01").toList ∈ with_patterns_pool [(("dob").toList, ("19950601").toList)]) ∧
    (("0601").toList ∈ with_patterns_pool [(("dob").toList, ("19950601").toList)]) :=
  ⟨(numeric_slice_injection [(("dob").toList, ("19950601").toList)]
      (("dob").toList) (("19950601").toList) (by decide) (by decide) (by decide)).1,
   ((numeric_slice_injection [(("dob").toList, ("19950601").toList)]
      (("dob").toList) (("19950601").toList) (by decide) (by decide) (by decide)).2
      (by decide)).1,
   ((numeric_slice_injection [(("dob").toList, ("19950601").toList)]
      (("dob").toList) (("19950601").toList) (by decide) (by decide) (by decide)).2
      (by decide)).2⟩

/-- C8: when every value of the input mapping is empty, the candidate
pool is empty and generate_wordlist returns the empty wordlist (for any
enumeration consistent with the pool). -/
theorem generate_wordlist_empty (ord : Finset Str → List Str)
    (inputs : List (Str × Str)) (max_per_base : Nat)
    (hempty : ∀ kv ∈ inputs, kv.2 = ([] : Str))
    (hord : IsLin (ord (with_patterns_pool inputs)) (with_patterns_pool inputs)) :
    generate_wordlist ord inputs max_per_base = [] := by
  have hB : build_base_words inputs = ∅ := by
    rw [Finset.eq_empty_iff_forall_not_mem]
    intro x hx
    rw [build_base_words, List.mem_toFinset, List.mem_flatMap] at hx
    obtain ⟨v, hv, hxv⟩ := hx
    rw [List.mem_map] at hv
    obtain ⟨kv, hkv, rfl⟩ := hv
    rw [hempty kv hkv] at hxv
    simp at hxv
  have hgen : generatedPool inputs = ∅ := by
    rw [generatedPool, hB]
    simp [pairwise_combinations]
  have hnum : numeric_slices inputs = ∅ := by
    rw [Finset.eq_empty_iff_forall_not_mem]
    intro x hx
    rw [numeric_slices, List.mem_toFinset, List.mem_flatMap] at hx
    obtain ⟨k, hk, hx⟩ := hx
    cases hdl : dictLookup inputs k with
    | none => rw [hdl] at hx; exact absurd hx (List.not_mem_nil x)
    | some v =>
      rw [hdl, slicesOf_some] at hx
      rw [dictLookup] at hdl
      obtain ⟨p, hfind, hpv⟩ := Option.map_eq_some'.mp hdl
      have hp2 : p.2 = [] := hempty p (List.mem_of_find?_eq_some hfind)
      rw [← hpv, hp2] at hx
      simp at hx
  have hpool : with_patterns_pool inputs = ∅ := by
    rw [with_patterns_pool, hnum, hgen]
    simp [add_common_patterns]
  obtain ⟨hnd, hts⟩ := hord
  rw [hpool, List.toFinset_eq_empty_iff] at hts
  rw [generate_wordlist, hpool, hts, List.take_nil]
  rfl

/-- Witness for C8: a mapping whose only value is empty produces the
empty wordlist. -/
theorem generate_wordlist_empty_witness :
    (∀ kv ∈ ([(("name").toList, ([] : Str))] : List (Str × Str)), kv.2 = ([] : Str)) ∧
    IsLin ([] : List Str) (with_patterns_pool [(("name").toList, ([] : Str))]) ∧
    generate_wordlist (fun _ => []) [(("name").toList, ([] : Str))] 500 = [] :=
  ⟨by decide, ⟨by decide, by decide⟩,
    generate_wordlist_empty (fun _ => []) [(("name").toList, ([] : Str))] 500
      (by decide) ⟨by decide, by decide⟩⟩
